import Mathlib

/-!
Verification of the single-instrument limit order book in `src/main.rs`.

The Rust program keeps, per side, a `HashMap<u64, PriceLevel>` from price to a
FIFO queue of resting orders, and a `BinaryHeap` of prices used as a best-price
index (max-heap for buys, via `Reverse` a min-heap for sells).  We embed:

* prices/quantities/ids/timestamps as `Nat`;
* the `HashMap` as an association list with first-occurrence lookup,
  in-place replacement on insert, and key deletion on remove;
* the `BinaryHeap` as its observable abstraction, a list kept sorted with the
  best price at the head (`peek` = head, `pop` = tail, `push` = ordered
  insert); `iter().any(...)` is list membership, which is order-insensitive;
* the global `AtomicU64` timestamp counter as an explicit `Nat` threaded in
  and out of `place_order` (`next_timestamp` returns the counter and bumps it);
* the `.unwrap()` in the matching loop as an `Option`: `none` models a panic.

The matching loop in `place_order` repeats while `remaining_quantity > 0`:
peek the opposing best price, stop if it does not cross, otherwise drain that
level through `match_level` and drop the level (map entry and heap top) if it
emptied.  `match_level` leaves a non-empty level only when the remaining
quantity has reached zero (`min` guarantees this), so the embedded loop's
one deviation from the literal `while` — returning instead of re-entering the
loop when the level is non-empty — is taken exactly when the Rust loop's
condition `remaining_quantity > 0` fails; this is proved as
`match_level_not_drained` below.
-/

/-- Side of an order: `Side::Buy` or `Side::Sell` from the Rust enum. -/
inductive Side where
  | Buy : Side
  | Sell : Side
deriving DecidableEq, Repr

/-- The `Trade` struct: price, quantity, maker id, taker id (all `u64`). -/
structure Trade where
  price : Nat
  quantity : Nat
  maker_id : Nat
  taker_id : Nat
deriving DecidableEq, Repr

/-- The `Order` struct: id, price, remaining quantity, timestamp (all `u64`). -/
structure Order where
  id : Nat
  price : Nat
  quantity : Nat
  timestamp : Nat
deriving DecidableEq, Repr

/-- The level's order queue (`orders : VecDeque<Order>`); the queue front is the list head. -/
abbrev PriceLevel := List Order

/-- The `HashMap<u64, PriceLevel>` as an association list. -/
abbrev PriceMap := List (Nat × PriceLevel)

/-- Rust `HashMap::get`: first-occurrence lookup. -/
def mapGet (m : PriceMap) (p : Nat) : Option PriceLevel :=
  match m with
  | [] => none
  | (k, v) :: rest => if k = p then some v else mapGet rest p

/-- Store a value at a key: replace the first binding in place, or append a
fresh binding at the end (the `entry(..).or_insert_with(..)` / `get_mut`
write-back of the `HashMap`). -/
def mapInsert (m : PriceMap) (p : Nat) (lvl : PriceLevel) : PriceMap :=
  match m with
  | [] => [(p, lvl)]
  | (k, v) :: rest => if k = p then (p, lvl) :: rest else (k, v) :: mapInsert rest p lvl

/-- Rust `HashMap::remove`: delete every binding of the key (a `HashMap` holds
at most one). -/
def mapRemove (m : PriceMap) (p : Nat) : PriceMap :=
  match m with
  | [] => []
  | (k, v) :: rest => if k = p then mapRemove rest p else (k, v) :: mapRemove rest p

/-- The keys of a price map. -/
def mapKeys (m : PriceMap) : List Nat := m.map Prod.fst

/-- Sum of the resting quantities in one level
(`level.orders.iter().map(|o| o.quantity).sum()`). -/
def levelSum (lvl : PriceLevel) : Nat := (lvl.map Order.quantity).sum

/-- Sum of the quantities of a list of trades. -/
def tradesSum (tr : List Trade) : Nat := (tr.map Trade.quantity).sum

/-- The level stored at a price, defaulting to the empty level. -/
def levelD (m : PriceMap) (p : Nat) : PriceLevel := (mapGet m p).getD []

/-- Push into the buy side's `BinaryHeap<HeapEntry>`: the heap is represented
by its sorted-descending list of prices, so push is ordered insertion. -/
def heapPushBuy (h : List Nat) (p : Nat) : List Nat :=
  List.orderedInsert (fun a b => a ≥ b) p h

/-- Push into the sell side's `BinaryHeap<Reverse<HeapEntry>>`: sorted ascending. -/
def heapPushSell (h : List Nat) (p : Nat) : List Nat :=
  List.orderedInsert (fun a b => a ≤ b) p h

/-- Rust `OrderBook::match_level`: drain the level from the front while quantity
remains, emitting one trade per visited maker order.  When the front order
survives with positive quantity the remaining quantity is zero (`trade_qty`
is a `min`), which is the Rust loop's `remaining_quantity == 0` break; that
branch therefore returns directly (see `match_level_not_drained`). -/
def match_level (level : PriceLevel) (price : Nat) (remaining_quantity : Nat)
    (taker_id : Nat) (trades : List Trade) : PriceLevel × Nat × List Trade :=
  match level with
  | [] => ([], remaining_quantity, trades)
  | order :: rest =>
    let trade_qty := min order.quantity remaining_quantity
    let trades1 := trades ++ [⟨price, trade_qty, order.id, taker_id⟩]
    let remaining1 := remaining_quantity - trade_qty
    if order.quantity - trade_qty = 0 then
      if remaining1 = 0 then (rest, remaining1, trades1)
      else match_level rest price remaining1 taker_id trades1
    else
      (⟨order.id, order.price, order.quantity - trade_qty, order.timestamp⟩ :: rest,
        remaining1, trades1)

/-- The matching loop of `place_order`, shared by both arms: `bc price best`
is the break comparison (`price < best_price` for a buy, `price > best_price`
for a sell).  Peek is the head of the sorted heap list; a missing map entry
for a peeked price models the `get_mut(&best_price).unwrap()` panic as `none`.
Returns the updated opposing heap and map, the trade buffer, and the
remaining quantity. -/
def matchLoop (bc : Nat → Nat → Bool) (heap : List Nat) (map : PriceMap)
    (trades : List Trade) (price remaining_quantity taker_id : Nat) :
    Option (List Nat × PriceMap × List Trade × Nat) :=
  if remaining_quantity = 0 then some (heap, map, trades, remaining_quantity)
  else
    match heap with
    | [] => some ([], map, trades, remaining_quantity)
    | best :: heapRest =>
      if bc price best then some (best :: heapRest, map, trades, remaining_quantity)
      else
        match mapGet map best with
        | none => none
        | some level =>
          let res := match_level level best remaining_quantity taker_id trades
          let m1 := mapInsert map best res.1
          let isEmptyLvl : Bool :=
            match mapGet m1 best with
            | none => true
            | some lvl => lvl.isEmpty
          if isEmptyLvl then
            if res.2.1 = 0 then some (heapRest, mapRemove m1 best, res.2.2, res.2.1)
            else matchLoop bc heapRest (mapRemove m1 best) res.2.2 price res.2.1 taker_id
          else
            some (best :: heapRest, m1, res.2.2, res.2.1)

/-- The `OrderBook` struct: two best-price heaps, two price maps, and the
reusable trade buffer. -/
structure OrderBook where
  buy_heap : List Nat
  sell_heap : List Nat
  buy_map : PriceMap
  sell_map : PriceMap
  trade_buffer : List Trade
deriving DecidableEq, Repr

/-- Rust `OrderBook::new()`. -/
def OrderBook.new : OrderBook := ⟨[], [], [], [], []⟩

/-- Rust `OrderBook::get_quantity_at_price`. -/
def get_quantity_at_price (price_map : PriceMap) (price : Nat) : Option (Nat × Nat) :=
  (mapGet price_map price).map (fun level => (price, levelSum level))

/-- Rust `OrderBook::buy_at`. -/
def buy_at (b : OrderBook) (price : Nat) : Option (Nat × Nat) :=
  get_quantity_at_price b.buy_map price

/-- Rust `OrderBook::sell_at`. -/
def sell_at (b : OrderBook) (price : Nat) : Option (Nat × Nat) :=
  get_quantity_at_price b.sell_map price

/-- Rust `OrderBook::best_buy`: peek the buy heap, then look the price up in
the buy map and sum that level. -/
def best_buy (b : OrderBook) : Option (Nat × Nat) :=
  b.buy_heap.head?.bind (fun p =>
    (mapGet b.buy_map p).map (fun level => (p, levelSum level)))

/-- Rust `OrderBook::best_sell`. -/
def best_sell (b : OrderBook) : Option (Nat × Nat) :=
  b.sell_heap.head?.bind (fun p =>
    (mapGet b.sell_map p).map (fun level => (p, levelSum level)))

/-- Rust `OrderBook::place_order`; `ts` is the global timestamp counter before the
call; the second component of the result is the counter after the call
(`next_timestamp` returns the old value and increments).  `none` models the
`unwrap` panic inside the matching loop. -/
def place_order (b : OrderBook) (ts : Nat) (side : Side) (price quantity id : Nat) :
    Option (OrderBook × Nat) :=
  if quantity = 0 then some ({ b with trade_buffer := [] }, ts)
  else
    let timestamp := ts
    match side with
    | Side.Buy =>
      match matchLoop (fun p best => decide (p < best)) b.sell_heap b.sell_map []
          price quantity id with
      | none => none
      | some (sheap, smap, trades, remaining) =>
        if remaining = 0 then
          some ({ b with sell_heap := sheap, sell_map := smap,
                         trade_buffer := trades }, ts + 1)
        else
          let order : Order := ⟨id, price, remaining, timestamp⟩
          let level := levelD b.buy_map price
          let bmap := mapInsert b.buy_map price (level ++ [order])
          let bheap :=
            if b.buy_heap.contains price then b.buy_heap
            else heapPushBuy b.buy_heap price
          some ({ b with buy_heap := bheap, buy_map := bmap,
                         sell_heap := sheap, sell_map := smap,
                         trade_buffer := trades }, ts + 1)
    | Side.Sell =>
      match matchLoop (fun p best => decide (best < p)) b.buy_heap b.buy_map []
          price quantity id with
      | none => none
      | some (bheap, bmap, trades, remaining) =>
        if remaining = 0 then
          some ({ b with buy_heap := bheap, buy_map := bmap,
                         trade_buffer := trades }, ts + 1)
        else
          let order : Order := ⟨id, price, remaining, timestamp⟩
          let level := levelD b.sell_map price
          let smap := mapInsert b.sell_map price (level ++ [order])
          let sheap :=
            if b.sell_heap.contains price then b.sell_heap
            else heapPushSell b.sell_heap price
          some ({ b with buy_heap := bheap, buy_map := bmap,
                         sell_heap := sheap, sell_map := smap,
                         trade_buffer := trades }, ts + 1)

/-- Book states reachable from `OrderBook::new()` by successful
`place_order` calls (with arbitrary timestamp-counter values). -/
inductive Reachable : OrderBook → Prop where
  | init : Reachable OrderBook.new
  | step {b b' : OrderBook} {ts ts' side price quantity id} :
      Reachable b →
      place_order b ts side price quantity id = some (b', ts') →
      Reachable b'

/-! ### Association-list map lemmas -/

theorem mapGet_mapInsert_self (m : PriceMap) (p : Nat) (lvl : PriceLevel) :
    mapGet (mapInsert m p lvl) p = some lvl := by
  induction m with
  | nil => simp [mapInsert, mapGet]
  | cons kv rest ih =>
    obtain ⟨k, v⟩ := kv
    by_cases hk : k = p
    · simp [mapInsert, hk, mapGet]
    · simp [mapInsert, hk, mapGet, ih]

theorem mapGet_mapInsert_ne (m : PriceMap) (p q : Nat) (lvl : PriceLevel) (h : q ≠ p) :
    mapGet (mapInsert m p lvl) q = mapGet m q := by
  have hpq : ¬ p = q := fun hh => h hh.symm
  induction m with
  | nil => simp [mapInsert, mapGet, hpq]
  | cons kv rest ih =>
    obtain ⟨k, v⟩ := kv
    by_cases hk : k = p
    · subst hk
      simp [mapInsert, mapGet, hpq]
    · simp [mapInsert, hk, mapGet, ih]

theorem mapGet_mapRemove_self (m : PriceMap) (p : Nat) :
    mapGet (mapRemove m p) p = none := by
  induction m with
  | nil => simp [mapRemove, mapGet]
  | cons kv rest ih =>
    obtain ⟨k, v⟩ := kv
    by_cases hk : k = p
    · simp [mapRemove, hk, ih]
    · simp [mapRemove, hk, mapGet, ih]

theorem mapGet_mapRemove_ne (m : PriceMap) (p q : Nat) (h : q ≠ p) :
    mapGet (mapRemove m p) q = mapGet m q := by
  induction m with
  | nil => simp [mapRemove]
  | cons kv rest ih =>
    obtain ⟨k, v⟩ := kv
    by_cases hk : k = p
    · subst hk
      have : ¬ k = q := fun hh => h hh.symm
      simp [mapRemove, mapGet, this, ih]
    · simp [mapRemove, hk, mapGet, ih]

theorem mapGet_isSome_iff_mem_keys (m : PriceMap) (p : Nat) :
    (mapGet m p).isSome ↔ p ∈ mapKeys m := by
  induction m with
  | nil => simp [mapGet, mapKeys]
  | cons kv rest ih =>
    obtain ⟨k, v⟩ := kv
    by_cases hk : k = p
    · subst hk
      simp [mapGet, mapKeys]
    · have : ¬ p = k := fun hh => hk hh.symm
      simp [mapGet, hk, mapKeys, this, ih]

theorem mapKeys_mapInsert_mem (m : PriceMap) (p : Nat) (lvl : PriceLevel)
    (h : p ∈ mapKeys m) : mapKeys (mapInsert m p lvl) = mapKeys m := by
  induction m with
  | nil => simp [mapKeys] at h
  | cons kv rest ih =>
    obtain ⟨k, v⟩ := kv
    by_cases hk : k = p
    · subst hk
      simp [mapInsert, mapKeys]
    · have hp : p ∈ mapKeys rest := by
        simp only [mapKeys, List.map_cons, List.mem_cons] at h
        rcases h with h | h
        · exact absurd h.symm hk
        · simpa [mapKeys] using h
      have hr := ih hp
      simp only [mapKeys] at hr
      simp [mapInsert, hk, mapKeys, hr]

theorem mapKeys_mapInsert_not_mem (m : PriceMap) (p : Nat) (lvl : PriceLevel)
    (h : p ∉ mapKeys m) : mapKeys (mapInsert m p lvl) = mapKeys m ++ [p] := by
  induction m with
  | nil => simp [mapInsert, mapKeys]
  | cons kv rest ih =>
    obtain ⟨k, v⟩ := kv
    simp only [mapKeys, List.map_cons, List.mem_cons] at h
    push_neg at h
    have hkp : ¬ k = p := fun hh => h.1 hh.symm
    have hr := ih h.2
    simp only [mapKeys] at hr
    simp [mapInsert, hkp, mapKeys, hr]

theorem mapKeys_mapRemove (m : PriceMap) (p : Nat) :
    mapKeys (mapRemove m p) = (mapKeys m).filter (fun k => !(k == p)) := by
  induction m with
  | nil => simp [mapRemove, mapKeys]
  | cons kv rest ih =>
    obtain ⟨k, v⟩ := kv
    have hr := ih
    simp only [mapKeys] at hr
    by_cases hk : k = p
    · subst hk
      simp [mapRemove, mapKeys, hr, List.filter_cons]
    · simp [mapRemove, hk, mapKeys, hr, List.filter_cons]

theorem mapGet_of_mem_nodup (m : PriceMap) (k : Nat) (v : PriceLevel)
    (hnd : (mapKeys m).Nodup) (hmem : (k, v) ∈ m) : mapGet m k = some v := by
  induction m with
  | nil => simp at hmem
  | cons kv rest ih =>
    obtain ⟨k0, v0⟩ := kv
    simp only [mapKeys, List.map_cons, List.nodup_cons] at hnd
    rcases List.mem_cons.mp hmem with h | h
    · injection h with h1 h2
      subst h1
      subst h2
      simp [mapGet]
    · have hk0 : ¬ k0 = k := by
        intro he
        subst he
        exact hnd.1 (List.mem_map.mpr ⟨(k0, v), h, rfl⟩)
      simp [mapGet, hk0, ih hnd.2 h]

theorem match_level_conserv (level : PriceLevel) (p r id : Nat) (tr : List Trade) :
    tradesSum (match_level level p r id tr).2.2 + (match_level level p r id tr).2.1
      = tradesSum tr + r := by
  induction level generalizing r tr with
  | nil => simp [match_level]
  | cons order rest ih =>
    have hmin : min order.quantity r ≤ r := Nat.min_le_right _ _
    simp only [match_level]
    split_ifs with h1 h2
    · simp [tradesSum]
      omega
    · rw [ih]
      simp [tradesSum]
      omega
    · simp [tradesSum]
      omega

theorem match_level_not_drained (level : PriceLevel) (p r id : Nat) (tr : List Trade)
    (h : (match_level level p r id tr).1 ≠ []) :
    (match_level level p r id tr).2.1 = 0 := by
  induction level generalizing r tr with
  | nil => simp [match_level] at h
  | cons order rest ih =>
    simp only [match_level] at h ⊢
    split_ifs at h ⊢ with h1 h2
    · exact h2
    · exact ih _ _ h
    · dsimp only
      have : min order.quantity r ≤ order.quantity := Nat.min_le_left _ _
      omega

theorem match_level_buffer (level : PriceLevel) (p r id : Nat) (tr0 tr : List Trade) :
    match_level level p r id (tr0 ++ tr) =
      ((match_level level p r id tr).1, (match_level level p r id tr).2.1,
        tr0 ++ (match_level level p r id tr).2.2) := by
  induction level generalizing r tr with
  | nil => simp [match_level]
  | cons order rest ih =>
    simp only [match_level]
    split_ifs with h1 h2
    · simp
    · rw [List.append_assoc tr0 tr, ih]
    · simp

theorem match_level_attr (level : PriceLevel) (p r id : Nat) (tr : List Trade) :
    ∃ consumed : List Order,
      ((match_level level p r id tr).2.2
          = tr ++ consumed.map (fun o => Trade.mk p o.quantity o.id id) ∧
        level = consumed ++ (match_level level p r id tr).1) ∨
      (∃ o t os,
        (match_level level p r id tr).2.2
          = tr ++ (consumed.map (fun o => Trade.mk p o.quantity o.id id)
              ++ [Trade.mk p t o.id id]) ∧
        level = consumed ++ o :: os ∧ t < o.quantity ∧
        (match_level level p r id tr).1
          = Order.mk o.id o.price (o.quantity - t) o.timestamp :: os) := by
  induction level generalizing r tr with
  | nil =>
    refine ⟨[], Or.inl ?_⟩
    simp [match_level]
  | cons order rest ih =>
    have hq : min order.quantity r ≤ order.quantity := Nat.min_le_left _ _
    simp only [match_level]
    split_ifs with h1 h2
    · refine ⟨[order], Or.inl ?_⟩
      have he : min order.quantity r = order.quantity := by omega
      simp [he]
    · obtain ⟨consumed, hc⟩ :=
        ih (r - min order.quantity r)
          (tr ++ [⟨p, min order.quantity r, order.id, id⟩])
      have he : min order.quantity r = order.quantity := by omega
      rcases hc with ⟨htr, hlv⟩ | ⟨o, t, os, htr, hlv, hto, hres⟩
      · refine ⟨order :: consumed, Or.inl ?_⟩
        constructor
        · rw [htr, he]
          simp
        · rw [List.cons_append, ← hlv]
      · refine ⟨order :: consumed, Or.inr ⟨o, t, os, ?_, ?_, hto, hres⟩⟩
        · rw [htr, he]
          simp
        · rw [List.cons_append, ← hlv]
    · refine ⟨[], Or.inr ⟨order, min order.quantity r, rest, ?_, ?_, ?_, ?_⟩⟩
      · simp
      · simp
      · omega
      · simp

theorem match_level_trades_mem (level : PriceLevel) (p r id : Nat) (tr : List Trade) :
    ∀ t ∈ (match_level level p r id tr).2.2,
      t ∈ tr ∨ (t.price = p ∧ t.taker_id = id ∧ ∃ o, o ∈ level ∧ o.id = t.maker_id) := by
  induction level generalizing r tr with
  | nil =>
    intro t ht
    exact Or.inl (by simpa [match_level] using ht)
  | cons order rest ih =>
    intro t ht
    simp only [match_level] at ht
    split_ifs at ht with h1 h2
    · dsimp only at ht
      rcases List.mem_append.mp ht with h | h
      · exact Or.inl h
      · refine Or.inr ?_
        simp only [List.mem_singleton] at h
        subst h
        exact ⟨rfl, rfl, order, List.mem_cons_self _ _, rfl⟩
    · rcases ih _ _ t ht with h | ⟨hp, hid, o, ho, hmk⟩
      · rcases List.mem_append.mp h with h | h
        · exact Or.inl h
        · refine Or.inr ?_
          simp only [List.mem_singleton] at h
          subst h
          exact ⟨rfl, rfl, order, List.mem_cons_self _ _, rfl⟩
      · exact Or.inr ⟨hp, hid, o, List.mem_cons_of_mem _ ho, hmk⟩
    · dsimp only at ht
      rcases List.mem_append.mp ht with h | h
      · exact Or.inl h
      · refine Or.inr ?_
        simp only [List.mem_singleton] at h
        subst h
        exact ⟨rfl, rfl, order, List.mem_cons_self _ _, rfl⟩

theorem match_level_trades_pos (level : PriceLevel) (p r id : Nat) (tr : List Trade)
    (hr : r ≠ 0) (hlvl : ∀ o ∈ level, 1 ≤ o.quantity) :
    ∀ t ∈ (match_level level p r id tr).2.2, t ∈ tr ∨ 1 ≤ t.quantity := by
  induction level generalizing r tr with
  | nil =>
    intro t ht
    exact Or.inl (by simpa [match_level] using ht)
  | cons order rest ih =>
    have hq1 : 1 ≤ order.quantity := hlvl order (List.mem_cons_self _ _)
    have htq : 1 ≤ min order.quantity r := by omega
    intro t ht
    simp only [match_level] at ht
    split_ifs at ht with h1 h2
    · dsimp only at ht
      rcases List.mem_append.mp ht with h | h
      · exact Or.inl h
      · simp only [List.mem_singleton] at h
        subst h
        exact Or.inr htq
    · rcases ih _ _ h2 (fun o ho => hlvl o (List.mem_cons_of_mem _ ho)) t ht with h | h
      · rcases List.mem_append.mp h with h | h
        · exact Or.inl h
        · simp only [List.mem_singleton] at h
          subst h
          exact Or.inr htq
      · exact Or.inr h
    · dsimp only at ht
      rcases List.mem_append.mp ht with h | h
      · exact Or.inl h
      · simp only [List.mem_singleton] at h
        subst h
        exact Or.inr htq

theorem match_level_level_pos (level : PriceLevel) (p r id : Nat) (tr : List Trade)
    (hlvl : ∀ o ∈ level, 1 ≤ o.quantity) :
    ∀ o ∈ (match_level level p r id tr).1, 1 ≤ o.quantity := by
  induction level generalizing r tr with
  | nil =>
    intro o ho
    simp [match_level] at ho
  | cons order rest ih =>
    intro o ho
    simp only [match_level] at ho
    split_ifs at ho with h1 h2
    · exact hlvl o (List.mem_cons_of_mem _ ho)
    · exact ih _ _ (fun o ho => hlvl o (List.mem_cons_of_mem _ ho)) o ho
    · dsimp only at ho
      rcases List.mem_cons.mp ho with h | h
      · subst h
        simpa using Nat.one_le_iff_ne_zero.mpr h1
      · exact hlvl o (List.mem_cons_of_mem _ h)

theorem match_level_level_price (level : PriceLevel) (p r id : Nat) (tr : List Trade)
    (hlvl : ∀ o ∈ level, o.price = p) :
    ∀ o ∈ (match_level level p r id tr).1, o.price = p := by
  induction level generalizing r tr with
  | nil =>
    intro o ho
    simp [match_level] at ho
  | cons order rest ih =>
    intro o ho
    simp only [match_level] at ho
    split_ifs at ho with h1 h2
    · exact hlvl o (List.mem_cons_of_mem _ ho)
    · exact ih _ _ (fun o ho => hlvl o (List.mem_cons_of_mem _ ho)) o ho
    · dsimp only at ho
      rcases List.mem_cons.mp ho with h | h
      · subst h
        exact hlvl order (List.mem_cons_self _ _)
      · exact hlvl o (List.mem_cons_of_mem _ h)

theorem tradesSum_append (a b : List Trade) :
    tradesSum (a ++ b) = tradesSum a + tradesSum b := by
  simp [tradesSum]

/-- The trade built against maker order `o` at level price `p` by taker `tid`. -/
def mkTradeOf (p tid : Nat) (o : Order) : Trade := ⟨p, o.quantity, o.id, tid⟩

/-- How one price level changes during a single `place_order` call, together
with the trades the call attributes to that level: a front segment of the
queue (`consumed`) is fully filled, one trade per consumed order carrying
that order's whole remaining quantity, and at most the next order is filled
partially, its quantity reduced by exactly its trade's quantity. -/
def makerAttribution (L L' : PriceLevel) (trs : List Trade) (p tid : Nat) : Prop :=
  (∃ consumed, L = consumed ++ L' ∧ trs = consumed.map (mkTradeOf p tid)) ∨
  (∃ consumed o t os, L = consumed ++ o :: os ∧ t < o.quantity ∧
    L' = Order.mk o.id o.price (o.quantity - t) o.timestamp :: os ∧
    trs = consumed.map (mkTradeOf p tid) ++ [Trade.mk p t o.id tid])

theorem makerAttribution_refl (L : PriceLevel) (p tid : Nat) :
    makerAttribution L L [] p tid :=
  Or.inl ⟨[], (List.nil_append L).symm, rfl⟩

theorem makerAttribution_nil (L' : PriceLevel) (trs : List Trade) (p tid : Nat)
    (h : makerAttribution [] L' trs p tid) : L' = [] ∧ trs = [] := by
  rcases h with ⟨c, hL, htr⟩ | ⟨c, o, t, os, hL, _, _, _⟩
  · obtain ⟨hc, hL'⟩ := List.append_eq_nil.mp hL.symm
    subst hc
    exact ⟨hL', by simpa using htr⟩
  · exact absurd (List.append_eq_nil.mp hL.symm).2 (by simp)

theorem pairwise_price_const (rel : Nat → Nat → Prop) (c : Nat) (l : List Trade)
    (hrefl : rel c c) (h : ∀ x ∈ l, x.price = c) :
    List.Pairwise (fun a b => rel a.price b.price) l := by
  induction l with
  | nil => exact List.Pairwise.nil
  | cons x xs ih =>
    refine List.Pairwise.cons ?_ (ih (fun y hy => h y (List.mem_cons_of_mem _ hy)))
    intro y hy
    rw [h x (List.mem_cons_self _ _), h y (List.mem_cons_of_mem _ hy)]
    exact hrefl

theorem filter_price_eq_self (trs : List Trade) (p : Nat)
    (h : ∀ t ∈ trs, t.price = p) :
    trs.filter (fun t => t.price == p) = trs := by
  induction trs with
  | nil => rfl
  | cons x xs ih =>
    have hx : (x.price == p) = true := beq_iff_eq.mpr (h x (List.mem_cons_self _ _))
    simp [List.filter_cons, hx, ih (fun t ht => h t (List.mem_cons_of_mem _ ht))]

theorem filter_price_eq_nil (trs : List Trade) (p c : Nat)
    (h : ∀ t ∈ trs, t.price = c) (hne : c ≠ p) :
    trs.filter (fun t => t.price == p) = [] := by
  induction trs with
  | nil => rfl
  | cons x xs ih =>
    have hx : (x.price == p) = false := by
      rw [beq_eq_false_iff_ne]
      rw [h x (List.mem_cons_self _ _)]
      exact hne
    simp [List.filter_cons, hx, ih (fun t ht => h t (List.mem_cons_of_mem _ ht))]

/-- The per-side consistency invariant the Rust code maintains between a
price map and its best-price heap: the heap lists exactly the map's keys,
without duplicates, ordered best-first; every stored level is a non-empty
queue of strictly positive orders whose price is the level's key. -/
structure SideInv (rel : Nat → Nat → Prop) (heap : List Nat) (map : PriceMap) : Prop where
  sorted : heap.Sorted rel
  nodup : heap.Nodup
  mem_iff : ∀ p, p ∈ heap ↔ (mapGet map p).isSome
  keys_nodup : (mapKeys map).Nodup
  lvl_ne : ∀ p lvl, mapGet map p = some lvl → lvl ≠ []
  lvl_pos : ∀ p lvl, mapGet map p = some lvl → ∀ o ∈ lvl, 1 ≤ o.quantity
  lvl_price : ∀ p lvl, mapGet map p = some lvl → ∀ o ∈ lvl, o.price = p

theorem SideInv_drop (rel : Nat → Nat → Prop) (best : Nat) (heapRest : List Nat)
    (map : PriceMap) (lvl1 : PriceLevel)
    (hinv : SideInv rel (best :: heapRest) map) :
    SideInv rel heapRest (mapRemove (mapInsert map best lvl1) best) := by
  have hnd := List.nodup_cons.mp hinv.nodup
  have hbk : best ∈ mapKeys map := by
    rw [← mapGet_isSome_iff_mem_keys]
    exact (hinv.mem_iff best).mp (List.mem_cons_self _ _)
  refine ⟨(List.sorted_cons.mp hinv.sorted).2, hnd.2, ?_, ?_, ?_, ?_, ?_⟩
  · intro q
    by_cases hq : q = best
    · subst hq
      rw [mapGet_mapRemove_self]
      simp [hnd.1]
    · rw [mapGet_mapRemove_ne _ _ _ hq, mapGet_mapInsert_ne _ _ _ _ hq]
      rw [← hinv.mem_iff q]
      constructor
      · exact fun h => List.mem_cons_of_mem _ h
      · intro h
        rcases List.mem_cons.mp h with h | h
        · exact absurd h hq
        · exact h
  · rw [mapKeys_mapRemove, mapKeys_mapInsert_mem _ _ _ hbk]
    exact hinv.keys_nodup.filter _
  · intro p lvl h
    by_cases hp : p = best
    · subst hp
      rw [mapGet_mapRemove_self] at h
      exact absurd h (by simp)
    · rw [mapGet_mapRemove_ne _ _ _ hp, mapGet_mapInsert_ne _ _ _ _ hp] at h
      exact hinv.lvl_ne p lvl h
  · intro p lvl h
    by_cases hp : p = best
    · subst hp
      rw [mapGet_mapRemove_self] at h
      exact absurd h (by simp)
    · rw [mapGet_mapRemove_ne _ _ _ hp, mapGet_mapInsert_ne _ _ _ _ hp] at h
      exact hinv.lvl_pos p lvl h
  · intro p lvl h
    by_cases hp : p = best
    · subst hp
      rw [mapGet_mapRemove_self] at h
      exact absurd h (by simp)
    · rw [mapGet_mapRemove_ne _ _ _ hp, mapGet_mapInsert_ne _ _ _ _ hp] at h
      exact hinv.lvl_price p lvl h

theorem SideInv_set (rel : Nat → Nat → Prop) (best : Nat) (heapRest : List Nat)
    (map : PriceMap) (lvl1 : PriceLevel)
    (hinv : SideInv rel (best :: heapRest) map)
    (hne : lvl1 ≠ []) (hpos : ∀ o ∈ lvl1, 1 ≤ o.quantity)
    (hpr : ∀ o ∈ lvl1, o.price = best) :
    SideInv rel (best :: heapRest) (mapInsert map best lvl1) := by
  have hbk : best ∈ mapKeys map := by
    rw [← mapGet_isSome_iff_mem_keys]
    exact (hinv.mem_iff best).mp (List.mem_cons_self _ _)
  refine ⟨hinv.sorted, hinv.nodup, ?_, ?_, ?_, ?_, ?_⟩
  · intro q
    by_cases hq : q = best
    · subst hq
      rw [mapGet_mapInsert_self]
      simp
    · rw [mapGet_mapInsert_ne _ _ _ _ hq]
      exact hinv.mem_iff q
  · rw [mapKeys_mapInsert_mem _ _ _ hbk]
    exact hinv.keys_nodup
  · intro p lvl h
    by_cases hp : p = best
    · subst hp
      rw [mapGet_mapInsert_self] at h
      cases h
      exact hne
    · rw [mapGet_mapInsert_ne _ _ _ _ hp] at h
      exact hinv.lvl_ne p lvl h
  · intro p lvl h
    by_cases hp : p = best
    · subst hp
      rw [mapGet_mapInsert_self] at h
      cases h
      exact hpos
    · rw [mapGet_mapInsert_ne _ _ _ _ hp] at h
      exact hinv.lvl_pos p lvl h
  · intro p lvl h
    by_cases hp : p = best
    · subst hp
      rw [mapGet_mapInsert_self] at h
      cases h
      exact hpr
    · rw [mapGet_mapInsert_ne _ _ _ _ hp] at h
      exact hinv.lvl_price p lvl h

theorem matchLoop_buffer (bc : Nat → Nat → Bool) (heap : List Nat) (map : PriceMap)
    (tr0 tr : List Trade) (price r id : Nat) :
    matchLoop bc heap map (tr0 ++ tr) price r id =
      (matchLoop bc heap map tr price r id).map
        (fun out => (out.1, out.2.1, tr0 ++ out.2.2.1, out.2.2.2)) := by
  induction heap generalizing map tr r with
  | nil =>
    simp only [matchLoop]
    split_ifs <;> simp
  | cons best heapRest ih =>
    simp only [matchLoop]
    split_ifs with h0 hbc
    · simp
    · simp
    · cases hget : mapGet map best with
      | none => simp
      | some level =>
        dsimp only
        rw [match_level_buffer]
        dsimp only
        split_ifs with hempty hr0
        · simp
        · exact ih _ _ _
        · simp

theorem matchLoop_main (bc : Nat → Nat → Bool) (rel : Nat → Nat → Prop)
    (price id : Nat)
    (hrefl : ∀ a, rel a a)
    (hmono : ∀ a b, rel a b → bc price a = true → bc price b = true)
    (heap : List Nat) :
    ∀ (map : PriceMap) (r : Nat), SideInv rel heap map →
    ∃ heap' map' newTr r',
      matchLoop bc heap map [] price r id = some (heap', map', newTr, r') ∧
      SideInv rel heap' map' ∧
      (∀ q, q ∈ heap' → q ∈ heap) ∧
      (r' ≠ 0 → ∀ q ∈ heap', bc price q = true) ∧
      tradesSum newTr + r' = r ∧
      (∀ t ∈ newTr, t.taker_id = id ∧ bc price t.price = false ∧ t.price ∈ heap ∧
        1 ≤ t.quantity ∧
        ∃ lvl, mapGet map t.price = some lvl ∧ ∃ o, o ∈ lvl ∧ o.id = t.maker_id) ∧
      List.Pairwise (fun a b => rel a.price b.price) newTr ∧
      (∀ p, makerAttribution (levelD map p) (levelD map' p)
        (newTr.filter (fun t => t.price == p)) p id) := by
  induction heap with
  | nil =>
    intro map r hinv
    refine ⟨[], map, [], r, ?_, hinv, fun q h => h, ?_, by simp [tradesSum], ?_,
      List.Pairwise.nil, ?_⟩
    · simp only [matchLoop]
      split_ifs <;> rfl
    · intro _ q hq
      simp at hq
    · intro t ht
      simp at ht
    · intro p
      exact makerAttribution_refl _ _ _
  | cons best heapRest ih =>
    intro map r hinv
    by_cases hr0 : r = 0
    · subst hr0
      refine ⟨best :: heapRest, map, [], 0, ?_, hinv, fun q h => h, ?_,
        by simp [tradesSum], ?_, List.Pairwise.nil, ?_⟩
      · simp [matchLoop]
      · intro h
        exact absurd rfl h
      · intro t ht
        simp at ht
      · intro p
        exact makerAttribution_refl _ _ _
    · by_cases hbc : bc price best = true
      · refine ⟨best :: heapRest, map, [], r, ?_, hinv, fun q h => h, ?_,
          by simp [tradesSum], ?_, List.Pairwise.nil, ?_⟩
        · simp only [matchLoop]
          rw [if_neg hr0, if_pos hbc]
        · intro _ q hq
          rcases List.mem_cons.mp hq with h | h
          · subst h
            exact hbc
          · exact hmono best q ((List.sorted_cons.mp hinv.sorted).1 q h) hbc
        · intro t ht
          simp at ht
        · intro p
          exact makerAttribution_refl _ _ _
      · have hbcf : bc price best = false := by
          cases hb : bc price best
          · rfl
          · exact absurd hb hbc
        have hbs : (mapGet map best).isSome := (hinv.mem_iff best).mp (List.mem_cons_self _ _)
        obtain ⟨level, hget⟩ := Option.isSome_iff_exists.mp hbs
        rcases hml : match_level level best r id [] with ⟨lvl1, r1, tr1⟩
        have hcons1 : tradesSum tr1 + r1 = r := by
          have h := match_level_conserv level best r id []
          rw [hml] at h
          simpa [tradesSum] using h
        have htr1mem : ∀ t ∈ tr1,
            t.price = best ∧ t.taker_id = id ∧ ∃ o, o ∈ level ∧ o.id = t.maker_id := by
          intro t ht
          have h := match_level_trades_mem level best r id [] t (by rw [hml]; exact ht)
          rcases h with h | h
          · simp at h
          · exact h
        have htr1pos : ∀ t ∈ tr1, 1 ≤ t.quantity := by
          intro t ht
          have h := match_level_trades_pos level best r id [] hr0
            (hinv.lvl_pos best level hget) t (by rw [hml]; exact ht)
          rcases h with h | h
          · simp at h
          · exact h
        have htr1price : ∀ t ∈ tr1, t.price = best := fun t ht => (htr1mem t ht).1
        have hattr1 : makerAttribution level lvl1 tr1 best id := by
          obtain ⟨consumed, hc⟩ := match_level_attr level best r id []
          rw [hml] at hc
          rcases hc with ⟨htr, hlv⟩ | ⟨o, t, os, htr, hlv, hto, hres⟩
          · exact Or.inl ⟨consumed, by simpa using hlv, by simpa [mkTradeOf] using htr⟩
          · exact Or.inr ⟨consumed, o, t, os, hlv, hto, by simpa using hres,
              by simpa [mkTradeOf] using htr⟩
        have htrprops : ∀ t ∈ tr1, t.taker_id = id ∧ bc price t.price = false ∧
            t.price ∈ best :: heapRest ∧ 1 ≤ t.quantity ∧
            ∃ lvl, mapGet map t.price = some lvl ∧ ∃ o, o ∈ lvl ∧ o.id = t.maker_id := by
          intro t ht
          obtain ⟨hp, htk, o, ho, hoid⟩ := htr1mem t ht
          refine ⟨htk, ?_, ?_, htr1pos t ht, ?_⟩
          · rw [hp]
            exact hbcf
          · rw [hp]
            exact List.mem_cons_self _ _
          · exact ⟨level, by rw [hp]; exact hget, o, ho, hoid⟩
        by_cases hL : lvl1 = []
        · by_cases hr1 : r1 = 0
          · refine ⟨heapRest, mapRemove (mapInsert map best lvl1) best, tr1, r1, ?_,
              SideInv_drop rel best heapRest map lvl1 hinv,
              fun q h => List.mem_cons_of_mem _ h, ?_, hcons1, htrprops, ?_, ?_⟩
            · simp only [matchLoop]
              rw [if_neg hr0, if_neg hbc, hget]
              dsimp only
              rw [hml]
              dsimp only
              rw [mapGet_mapInsert_self]
              dsimp only
              have hLb : List.isEmpty lvl1 = true := by
                rw [hL]
                rfl
              rw [hLb, if_pos rfl, if_pos hr1]
            · intro h
              exact absurd hr1 h
            · exact pairwise_price_const rel best tr1 (hrefl best) htr1price
            · intro p
              by_cases hp : p = best
              · subst hp
                rw [filter_price_eq_self tr1 p htr1price]
                have h1 : levelD map p = level := by
                  simp [levelD, hget]
                have h2 : levelD (mapRemove (mapInsert map p lvl1) p) p = [] := by
                  simp [levelD, mapGet_mapRemove_self]
                rw [h1, h2]
                rw [hL] at hattr1
                exact hattr1
              · rw [filter_price_eq_nil tr1 p best htr1price (fun hh => hp hh.symm)]
                have h2 : levelD (mapRemove (mapInsert map best lvl1) best) p = levelD map p := by
                  simp [levelD, mapGet_mapRemove_ne _ _ _ hp, mapGet_mapInsert_ne _ _ _ _ hp]
                rw [h2]
                exact makerAttribution_refl _ _ _
          · have hinv2 := SideInv_drop rel best heapRest map lvl1 hinv
            obtain ⟨heap2, map3, newTr2, r2, heq2, hinv3, hsub2, hbrk2, hcons2, htrm2,
              hpw2, hattr2⟩ := ih (mapRemove (mapInsert map best lvl1) best) r1 hinv2
            have hbestnotin : best ∉ heapRest := (List.nodup_cons.mp hinv.nodup).1
            refine ⟨heap2, map3, tr1 ++ newTr2, r2, ?_, hinv3,
              fun q h => List.mem_cons_of_mem _ (hsub2 q h), hbrk2, ?_, ?_, ?_, ?_⟩
            · simp only [matchLoop]
              rw [if_neg hr0, if_neg hbc, hget]
              dsimp only
              rw [hml]
              dsimp only
              rw [mapGet_mapInsert_self]
              dsimp only
              have hLb : List.isEmpty lvl1 = true := by
                rw [hL]
                rfl
              rw [hLb, if_pos rfl, if_neg hr1]
              have hb := matchLoop_buffer bc heapRest (mapRemove (mapInsert map best lvl1) best)
                tr1 [] price r1 id
              rw [List.append_nil] at hb
              rw [hb, heq2]
              rfl
            · rw [tradesSum_append]
              omega
            · intro t ht
              rcases List.mem_append.mp ht with h | h
              · exact htrprops t h
              · obtain ⟨htk, hbcq, hmem, hqty, lvl, hgl, o, ho, hoid⟩ := htrm2 t h
                have htpne : t.price ≠ best := by
                  intro he
                  exact hbestnotin (he ▸ hmem)
                rw [mapGet_mapRemove_ne _ _ _ htpne, mapGet_mapInsert_ne _ _ _ _ htpne] at hgl
                exact ⟨htk, hbcq, List.mem_cons_of_mem _ hmem, hqty, lvl, hgl, o, ho, hoid⟩
            · refine List.pairwise_append.mpr ⟨pairwise_price_const rel best tr1 (hrefl best) htr1price,
                hpw2, ?_⟩
              intro a ha b hb
              rw [htr1price a ha]
              exact (List.sorted_cons.mp hinv.sorted).1 b.price (htrm2 b hb).2.2.1
            · intro p
              rw [List.filter_append]
              by_cases hp : p = best
              · subst hp
                rw [filter_price_eq_self tr1 p htr1price]
                have hd : levelD (mapRemove (mapInsert map p lvl1) p) p = [] := by
                  simp [levelD, mapGet_mapRemove_self]
                have hat := hattr2 p
                rw [hd] at hat
                obtain ⟨hmap3, hfil2⟩ := makerAttribution_nil _ _ _ _ hat
                rw [hfil2, hmap3, List.append_nil]
                have h1 : levelD map p = level := by
                  simp [levelD, hget]
                rw [h1]
                rw [hL] at hattr1
                exact hattr1
              · rw [filter_price_eq_nil tr1 p best htr1price (fun hh => hp hh.symm),
                  List.nil_append]
                have h2 : levelD (mapRemove (mapInsert map best lvl1) best) p = levelD map p := by
                  simp [levelD, mapGet_mapRemove_ne _ _ _ hp, mapGet_mapInsert_ne _ _ _ _ hp]
                have hat := hattr2 p
                rw [h2] at hat
                exact hat
        · have hr1z : r1 = 0 := by
            have h := match_level_not_drained level best r id [] (by rw [hml]; simpa using hL)
            rw [hml] at h
            exact h
          have hpos1 : ∀ o ∈ lvl1, 1 ≤ o.quantity := by
            have h := match_level_level_pos level best r id [] (hinv.lvl_pos best level hget)
            rw [hml] at h
            exact h
          have hpr1 : ∀ o ∈ lvl1, o.price = best := by
            have h := match_level_level_price level best r id [] (hinv.lvl_price best level hget)
            rw [hml] at h
            exact h
          refine ⟨best :: heapRest, mapInsert map best lvl1, tr1, r1, ?_,
            SideInv_set rel best heapRest map lvl1 hinv hL hpos1 hpr1,
            fun q h => h, ?_, hcons1, htrprops, ?_, ?_⟩
          · simp only [matchLoop]
            rw [if_neg hr0, if_neg hbc, hget]
            dsimp only
            rw [hml]
            dsimp only
            rw [mapGet_mapInsert_self]
            dsimp only
            have hLb : List.isEmpty lvl1 = false := by
              cases hc : lvl1 with
              | nil => exact absurd hc hL
              | cons a as => rfl
            rw [hLb, if_neg (by simp)]
          · intro h
            exact absurd hr1z h
          · exact pairwise_price_const rel best tr1 (hrefl best) htr1price
          · intro p
            by_cases hp : p = best
            · subst hp
              rw [filter_price_eq_self tr1 p htr1price]
              have h1 : levelD map p = level := by
                simp [levelD, hget]
              have h2 : levelD (mapInsert map p lvl1) p = lvl1 := by
                simp [levelD, mapGet_mapInsert_self]
              rw [h1, h2]
              exact hattr1
            · rw [filter_price_eq_nil tr1 p best htr1price (fun hh => hp hh.symm)]
              have h2 : levelD (mapInsert map best lvl1) p = levelD map p := by
                simp [levelD, mapGet_mapInsert_ne _ _ _ _ hp]
              rw [h2]
              exact makerAttribution_refl _ _ _

theorem levelSum_append (a b : PriceLevel) :
    levelSum (a ++ b) = levelSum a + levelSum b := by
  simp [levelSum]

theorem SideInv_insert (rel : Nat → Nat → Prop) [DecidableRel rel]
    [IsTotal Nat rel] [IsTrans Nat rel]
    (heap : List Nat) (map : PriceMap) (p : Nat) (o : Order)
    (hinv : SideInv rel heap map) (hq : 1 ≤ o.quantity) (hp : o.price = p) :
    SideInv rel (if heap.contains p then heap else List.orderedInsert rel p heap)
      (mapInsert map p (levelD map p ++ [o])) := by
  have hcontains : heap.contains p = true ↔ p ∈ heap := by
    exact List.elem_iff
  have holdpos : ∀ o' ∈ levelD map p, 1 ≤ o'.quantity := by
    intro o' ho'
    cases hg : mapGet map p with
    | none => simp [levelD, hg] at ho'
    | some lvl =>
      simp only [levelD, hg, Option.getD_some] at ho'
      exact hinv.lvl_pos p lvl hg o' ho'
  have holdpr : ∀ o' ∈ levelD map p, o'.price = p := by
    intro o' ho'
    cases hg : mapGet map p with
    | none => simp [levelD, hg] at ho'
    | some lvl =>
      simp only [levelD, hg, Option.getD_some] at ho'
      exact hinv.lvl_price p lvl hg o' ho'
  refine ⟨?_, ?_, ?_, ?_, ?_, ?_, ?_⟩
  · by_cases hc : heap.contains p = true
    · rw [if_pos hc]
      exact hinv.sorted
    · rw [if_neg hc]
      exact hinv.sorted.orderedInsert p heap
  · by_cases hc : heap.contains p = true
    · rw [if_pos hc]
      exact hinv.nodup
    · rw [if_neg hc]
      have hpnot : p ∉ heap := fun hmem => hc (hcontains.mpr hmem)
      exact ((List.perm_orderedInsert rel p heap).nodup_iff).mpr
        (List.nodup_cons.mpr ⟨hpnot, hinv.nodup⟩)
  · intro q
    by_cases hpq : q = p
    · subst hpq
      rw [mapGet_mapInsert_self]
      simp only [Option.isSome_some, iff_true]
      by_cases hc : heap.contains q = true
      · rw [if_pos hc]
        exact hcontains.mp hc
      · rw [if_neg hc]
        exact (List.mem_orderedInsert rel).mpr (Or.inl rfl)
    · rw [mapGet_mapInsert_ne _ _ _ _ hpq]
      by_cases hc : heap.contains p = true
      · rw [if_pos hc]
        exact hinv.mem_iff q
      · rw [if_neg hc]
        rw [← hinv.mem_iff q]
        constructor
        · intro h
          rcases (List.mem_orderedInsert rel).mp h with h | h
          · exact absurd h hpq
          · exact h
        · intro h
          exact (List.mem_orderedInsert rel).mpr (Or.inr h)
  · by_cases hk : p ∈ mapKeys map
    · rw [mapKeys_mapInsert_mem _ _ _ hk]
      exact hinv.keys_nodup
    · rw [mapKeys_mapInsert_not_mem _ _ _ hk]
      refine hinv.keys_nodup.append (List.nodup_singleton p) ?_
      intro a ha hb
      rw [List.mem_singleton] at hb
      subst hb
      exact hk ha
  · intro q lvl h
    by_cases hpq : q = p
    · subst hpq
      rw [mapGet_mapInsert_self] at h
      cases h
      simp
    · rw [mapGet_mapInsert_ne _ _ _ _ hpq] at h
      exact hinv.lvl_ne q lvl h
  · intro q lvl h
    by_cases hpq : q = p
    · subst hpq
      rw [mapGet_mapInsert_self] at h
      cases h
      intro o' ho'
      rcases List.mem_append.mp ho' with h | h
      · exact holdpos o' h
      · rw [List.mem_singleton] at h
        subst h
        exact hq
    · rw [mapGet_mapInsert_ne _ _ _ _ hpq] at h
      exact hinv.lvl_pos q lvl h
  · intro q lvl h
    by_cases hpq : q = p
    · subst hpq
      rw [mapGet_mapInsert_self] at h
      cases h
      intro o' ho'
      rcases List.mem_append.mp ho' with h | h
      · exact holdpr o' h
      · rw [List.mem_singleton] at h
        subst h
        exact hp
    · rw [mapGet_mapInsert_ne _ _ _ _ hpq] at h
      exact hinv.lvl_price q lvl h

/-- The side's own price map (where an unfilled remainder rests). -/
def ownMap (b : OrderBook) (side : Side) : PriceMap :=
  match side with
  | Side.Buy => b.buy_map
  | Side.Sell => b.sell_map

/-- The opposing side's price map (where makers are consumed). -/
def oppMap (b : OrderBook) (side : Side) : PriceMap :=
  match side with
  | Side.Buy => b.sell_map
  | Side.Sell => b.buy_map

/-- The break comparison of the matching loop for the given incoming side:
the loop stops when `bcOf side price best` holds (no crossing). -/
def bcOf (side : Side) : Nat → Nat → Bool :=
  match side with
  | Side.Buy => fun price best => decide (price < best)
  | Side.Sell => fun price best => decide (best < price)

/-- Priority order on maker prices for the given incoming side: earlier
trades hit better prices (lower sells for a buy, higher buys for a sell). -/
def relOf (side : Side) : Nat → Nat → Prop :=
  match side with
  | Side.Buy => fun a b => a ≤ b
  | Side.Sell => fun a b => a ≥ b

/-- The whole-book invariant: both sides are internally consistent and the
book is never crossed (every resting buy price is below every resting sell
price). -/
structure BookInv (b : OrderBook) : Prop where
  buy : SideInv (fun a b => a ≥ b) b.buy_heap b.buy_map
  sell : SideInv (fun a b => a ≤ b) b.sell_heap b.sell_map
  cross : ∀ pb ∈ b.buy_heap, ∀ ps ∈ b.sell_heap, pb < ps

theorem BookInv_new : BookInv OrderBook.new := by
  refine ⟨⟨?_, ?_, ?_, ?_, ?_, ?_, ?_⟩, ⟨?_, ?_, ?_, ?_, ?_, ?_, ?_⟩, ?_⟩ <;>
    simp [OrderBook.new, mapGet, mapKeys]

theorem place_order_main (b : OrderBook) (ts : Nat) (side : Side) (price qty id : Nat)
    (hb : BookInv b) :
    ∃ b' ts', place_order b ts side price qty id = some (b', ts') ∧
      BookInv b' ∧
      tradesSum b'.trade_buffer + levelSum (levelD (ownMap b' side) price)
        = qty + levelSum (levelD (ownMap b side) price) ∧
      (∀ t ∈ b'.trade_buffer, t.taker_id = id ∧ bcOf side price t.price = false ∧
        1 ≤ t.quantity ∧
        ∃ lvl, mapGet (oppMap b side) t.price = some lvl ∧
          ∃ o, o ∈ lvl ∧ o.id = t.maker_id ∧ o.price = t.price) ∧
      List.Pairwise (fun u v => relOf side u.price v.price) b'.trade_buffer ∧
      (∀ p, makerAttribution (levelD (oppMap b side) p) (levelD (oppMap b' side) p)
        (b'.trade_buffer.filter (fun t => t.price == p)) p id) := by
  by_cases hq0 : qty = 0
  · subst hq0
    refine ⟨{ b with trade_buffer := [] }, ts, ?_, ⟨hb.buy, hb.sell, hb.cross⟩, ?_, ?_, ?_, ?_⟩
    · simp [place_order]
    · cases side <;> simp [ownMap, tradesSum]
    · intro t ht
      simp at ht
    · exact List.Pairwise.nil
    · intro p
      cases side <;> exact makerAttribution_refl _ _ _
  · cases side with
    | Buy =>
      have hmono : ∀ a c, a ≤ c →
          (fun p best => decide (p < best)) price a = true →
          (fun p best => decide (p < best)) price c = true := by
        intro a c hac h
        simp only [decide_eq_true_eq] at h ⊢
        omega
      obtain ⟨sheap, smap, newTr, r', heq, hinv', hsub, hbrk, hcons, htrm, hpw, hattr⟩ :=
        matchLoop_main (fun p best => decide (p < best)) (fun a c => a ≤ c) price id
          (fun a => le_refl a) hmono b.sell_heap b.sell_map qty hb.sell
      by_cases hr' : r' = 0
      · refine ⟨{ b with sell_heap := sheap, sell_map := smap, trade_buffer := newTr },
          ts + 1, ?_, ?_, ?_, ?_, hpw, hattr⟩
        · simp only [place_order]
          rw [if_neg hq0, heq]
          dsimp only
          rw [if_pos hr']
        · refine ⟨hb.buy, hinv', ?_⟩
          intro pb hpb ps hps
          exact hb.cross pb hpb ps (hsub ps hps)
        · dsimp only [ownMap]
          omega
        · intro t ht
          obtain ⟨htk, hbcq, hmem, hqty, lvl, hgl, o, ho, hoid⟩ := htrm t ht
          exact ⟨htk, hbcq, hqty, lvl, hgl, o, ho, hoid,
            (hb.sell.lvl_price t.price lvl hgl o ho).symm ▸ rfl⟩
      · refine ⟨{ b with
            buy_heap := (if b.buy_heap.contains price then b.buy_heap else heapPushBuy b.buy_heap price),
            buy_map := mapInsert b.buy_map price (levelD b.buy_map price ++ [⟨id, price, r', ts⟩]),
            sell_heap := sheap,
            sell_map := smap,
            trade_buffer := newTr },
          ts + 1, ?_, ?_, ?_, ?_, hpw, hattr⟩
        · simp only [place_order]
          rw [if_neg hq0, heq]
          dsimp only
          rw [if_neg hr']
        · refine ⟨?_, hinv', ?_⟩
          · have h := SideInv_insert (fun a c => a ≥ c) b.buy_heap b.buy_map price
              ⟨id, price, r', ts⟩ hb.buy (by simpa using Nat.one_le_iff_ne_zero.mpr hr') rfl
            simpa [heapPushBuy] using h
          · intro pb hpb ps hps
            have hps' : price < ps := by
              have h := hbrk hr' ps hps
              simpa using h
            by_cases hc : b.buy_heap.contains price = true
            · rw [if_pos hc] at hpb
              exact hb.cross pb hpb ps (hsub ps hps)
            · rw [if_neg hc] at hpb
              rcases (List.mem_orderedInsert _).mp hpb with h | h
              · subst h
                exact hps'
              · exact hb.cross pb h ps (hsub ps hps)
        · dsimp only [ownMap]
          have hd : levelD (mapInsert b.buy_map price
              (levelD b.buy_map price ++ [⟨id, price, r', ts⟩])) price
              = levelD b.buy_map price ++ [⟨id, price, r', ts⟩] := by
            simp [levelD, mapGet_mapInsert_self]
          rw [hd, levelSum_append]
          simp only [levelSum, List.map_cons, List.map_nil, List.sum_cons, List.sum_nil]
          omega
        · intro t ht
          obtain ⟨htk, hbcq, hmem, hqty, lvl, hgl, o, ho, hoid⟩ := htrm t ht
          exact ⟨htk, hbcq, hqty, lvl, hgl, o, ho, hoid,
            (hb.sell.lvl_price t.price lvl hgl o ho).symm ▸ rfl⟩
    | Sell =>
      have hmono : ∀ a c, a ≥ c →
          (fun p best => decide (best < p)) price a = true →
          (fun p best => decide (best < p)) price c = true := by
        intro a c hac h
        simp only [decide_eq_true_eq] at h ⊢
        omega
      obtain ⟨bheap, bmap, newTr, r', heq, hinv', hsub, hbrk, hcons, htrm, hpw, hattr⟩ :=
        matchLoop_main (fun p best => decide (best < p)) (fun a c => a ≥ c) price id
          (fun a => le_refl a) hmono b.buy_heap b.buy_map qty hb.buy
      by_cases hr' : r' = 0
      · refine ⟨{ b with buy_heap := bheap, buy_map := bmap, trade_buffer := newTr },
          ts + 1, ?_, ?_, ?_, ?_, hpw, hattr⟩
        · simp only [place_order]
          rw [if_neg hq0, heq]
          dsimp only
          rw [if_pos hr']
        · refine ⟨hinv', hb.sell, ?_⟩
          intro pb hpb ps hps
          exact hb.cross pb (hsub pb hpb) ps hps
        · dsimp only [ownMap]
          omega
        · intro t ht
          obtain ⟨htk, hbcq, hmem, hqty, lvl, hgl, o, ho, hoid⟩ := htrm t ht
          exact ⟨htk, hbcq, hqty, lvl, hgl, o, ho, hoid,
            (hb.buy.lvl_price t.price lvl hgl o ho).symm ▸ rfl⟩
      · refine ⟨{ b with
            buy_heap := bheap,
            buy_map := bmap,
            sell_heap := (if b.sell_heap.contains price then b.sell_heap else heapPushSell b.sell_heap price),
            sell_map := mapInsert b.sell_map price (levelD b.sell_map price ++ [⟨id, price, r', ts⟩]),
            trade_buffer := newTr },
          ts + 1, ?_, ?_, ?_, ?_, hpw, hattr⟩
        · simp only [place_order]
          rw [if_neg hq0, heq]
          dsimp only
          rw [if_neg hr']
        · refine ⟨hinv', ?_, ?_⟩
          · have h := SideInv_insert (fun a c => a ≤ c) b.sell_heap b.sell_map price
              ⟨id, price, r', ts⟩ hb.sell (by simpa using Nat.one_le_iff_ne_zero.mpr hr') rfl
            simpa [heapPushSell] using h
          · intro pb hpb ps hps
            have hpb' : pb < price := by
              have h := hbrk hr' pb hpb
              simpa using h
            by_cases hc : b.sell_heap.contains price = true
            · rw [if_pos hc] at hps
              exact hb.cross pb (hsub pb hpb) ps hps
            · rw [if_neg hc] at hps
              rcases (List.mem_orderedInsert _).mp hps with h | h
              · subst h
                exact hpb'
              · exact hb.cross pb (hsub pb hpb) ps h
        · dsimp only [ownMap]
          have hd : levelD (mapInsert b.sell_map price
              (levelD b.sell_map price ++ [⟨id, price, r', ts⟩])) price
              = levelD b.sell_map price ++ [⟨id, price, r', ts⟩] := by
            simp [levelD, mapGet_mapInsert_self]
          rw [hd, levelSum_append]
          simp only [levelSum, List.map_cons, List.map_nil, List.sum_cons, List.sum_nil]
          omega
        · intro t ht
          obtain ⟨htk, hbcq, hmem, hqty, lvl, hgl, o, ho, hoid⟩ := htrm t ht
          exact ⟨htk, hbcq, hqty, lvl, hgl, o, ho, hoid,
            (hb.buy.lvl_price t.price lvl hgl o ho).symm ▸ rfl⟩

theorem place_order_isSome (b : OrderBook) (ts : Nat) (side : Side) (price qty id : Nat)
    (hb : BookInv b) : (place_order b ts side price qty id).isSome := by
  obtain ⟨b', ts', heq, _⟩ := place_order_main b ts side price qty id hb
  rw [heq]
  rfl

theorem place_order_inv (b : OrderBook) (ts : Nat) (side : Side) (price qty id : Nat)
    (b' : OrderBook) (ts' : Nat) (hb : BookInv b)
    (h : place_order b ts side price qty id = some (b', ts')) : BookInv b' := by
  obtain ⟨b2, ts2, heq, hinv, _⟩ := place_order_main b ts side price qty id hb
  rw [h] at heq
  cases heq
  exact hinv

theorem Reachable_inv (b : OrderBook) (hb : Reachable b) : BookInv b := by
  induction hb with
  | init => exact BookInv_new
  | step _ h ih => exact place_order_inv _ _ _ _ _ _ _ _ ih h

theorem best_buy_some (b : OrderBook) (p q : Nat) (h : best_buy b = some (p, q)) :
    b.buy_heap.head? = some p ∧ ∃ lvl, mapGet b.buy_map p = some lvl ∧ q = levelSum lvl := by
  cases hh : b.buy_heap with
  | nil => simp [best_buy, hh] at h
  | cons a l =>
    simp only [best_buy, hh, List.head?_cons, Option.some_bind] at h
    cases hg : mapGet b.buy_map a with
    | none => simp [hg] at h
    | some lvl =>
      simp only [hg, Option.map_some'] at h
      obtain ⟨h1, h2⟩ := Prod.mk.injEq .. ▸ Option.some.inj h
      subst h1
      exact ⟨rfl, lvl, hg, h2.symm⟩

theorem best_sell_some (b : OrderBook) (p q : Nat) (h : best_sell b = some (p, q)) :
    b.sell_heap.head? = some p ∧ ∃ lvl, mapGet b.sell_map p = some lvl ∧ q = levelSum lvl := by
  cases hh : b.sell_heap with
  | nil => simp [best_sell, hh] at h
  | cons a l =>
    simp only [best_sell, hh, List.head?_cons, Option.some_bind] at h
    cases hg : mapGet b.sell_map a with
    | none => simp [hg] at h
    | some lvl =>
      simp only [hg, Option.map_some'] at h
      obtain ⟨h1, h2⟩ := Prod.mk.injEq .. ▸ Option.some.inj h
      subst h1
      exact ⟨rfl, lvl, hg, h2.symm⟩

/-- All resting orders stored on one side, across every price level. -/
def allOrders (m : PriceMap) : List Order :=
  match m with
  | [] => []
  | (_, lvl) :: rest => lvl ++ allOrders rest

/-- The total resting quantity on a side at exactly price `p`, computed from
the orders themselves (independent of the per-level indexing). -/
def sideQtyAt (m : PriceMap) (p : Nat) : Nat :=
  levelSum ((allOrders m).filter (fun o => o.price == p))

theorem allOrders_mem (m : PriceMap) (o : Order) (h : o ∈ allOrders m) :
    ∃ kv, kv ∈ m ∧ o ∈ kv.2 := by
  induction m with
  | nil => simp [allOrders] at h
  | cons kv rest ih =>
    obtain ⟨k, v⟩ := kv
    simp only [allOrders] at h
    rcases List.mem_append.mp h with h | h
    · exact ⟨(k, v), List.mem_cons_self _ _, h⟩
    · obtain ⟨kv', hkv', ho'⟩ := ih h
      exact ⟨kv', List.mem_cons_of_mem _ hkv', ho'⟩

theorem filter_order_eq_self (lvl : PriceLevel) (p : Nat)
    (h : ∀ o ∈ lvl, o.price = p) :
    lvl.filter (fun o => o.price == p) = lvl := by
  induction lvl with
  | nil => rfl
  | cons x xs ih =>
    have hx : (x.price == p) = true := beq_iff_eq.mpr (h x (List.mem_cons_self _ _))
    simp [List.filter_cons, hx, ih (fun o ho => h o (List.mem_cons_of_mem _ ho))]

theorem filter_order_eq_nil (lvl : PriceLevel) (p : Nat)
    (h : ∀ o ∈ lvl, ¬ o.price = p) :
    lvl.filter (fun o => o.price == p) = [] := by
  induction lvl with
  | nil => rfl
  | cons x xs ih =>
    have hx : (x.price == p) = false := by
      rw [beq_eq_false_iff_ne]
      exact h x (List.mem_cons_self _ _)
    simp [List.filter_cons, hx, ih (fun o ho => h o (List.mem_cons_of_mem _ ho))]

theorem sideQtyAt_eq_levelSum (m : PriceMap) (p : Nat)
    (hpr : ∀ kv ∈ m, ∀ o ∈ kv.2, o.price = kv.1)
    (hnd : (mapKeys m).Nodup) :
    sideQtyAt m p = levelSum (levelD m p) := by
  induction m with
  | nil => simp [sideQtyAt, allOrders, levelD, mapGet, levelSum]
  | cons kv rest ih =>
    obtain ⟨k, v⟩ := kv
    simp only [mapKeys, List.map_cons, List.nodup_cons] at hnd
    have hprv : ∀ o ∈ v, o.price = k := fun o ho => hpr (k, v) (List.mem_cons_self _ _) o ho
    have hprr : ∀ kv ∈ rest, ∀ o ∈ kv.2, o.price = kv.1 :=
      fun kv hkv => hpr kv (List.mem_cons_of_mem _ hkv)
    have hrest := ih hprr hnd.2
    by_cases hk : k = p
    · subst hk
      have hfr : (allOrders rest).filter (fun o => o.price == k) = [] := by
        refine filter_order_eq_nil _ _ ?_
        intro o ho
        obtain ⟨kv', hkv', ho'⟩ := allOrders_mem rest o ho
        rw [hprr kv' hkv' o ho']
        intro he
        exact hnd.1 (he ▸ List.mem_map.mpr ⟨kv', hkv', rfl⟩)
      simp only [sideQtyAt, allOrders, List.filter_append, hfr, List.append_nil,
        filter_order_eq_self v k hprv, levelD, mapGet]
      simp
    · have hfv : v.filter (fun o => o.price == p) = [] := by
        refine filter_order_eq_nil _ _ ?_
        intro o ho
        rw [hprv o ho]
        exact hk
      simp only [sideQtyAt, allOrders, List.filter_append, hfv, List.nil_append]
      simp only [sideQtyAt] at hrest
      rw [hrest]
      simp [levelD, mapGet, hk]

theorem BookInv_kv_price (m : PriceMap)
    (hnd : (mapKeys m).Nodup)
    (hpr : ∀ p lvl, mapGet m p = some lvl → ∀ o ∈ lvl, o.price = p) :
    ∀ kv ∈ m, ∀ o ∈ kv.2, o.price = kv.1 := by
  intro kv hkv o ho
  exact hpr kv.1 kv.2 (mapGet_of_mem_nodup m kv.1 kv.2 hnd hkv) o ho

theorem mem_of_head_eq (l : List Nat) (a : Nat) (h : l.head? = some a) : a ∈ l := by
  cases l with
  | nil => simp at h
  | cons x xs =>
    simp only [List.head?_cons, Option.some.injEq] at h
    subst h
    exact List.mem_cons_self _ _

/-- Correctness of the best-of-book queries on one reachable state: each
returns `none` exactly when no order rests on its side, and otherwise the
best (highest buy / lowest sell) price among levels holding orders. -/
def bestPriceSpec (b : OrderBook) : Prop :=
  (best_buy b = none ↔ ¬∃ p lvl o, mapGet b.buy_map p = some lvl ∧ o ∈ lvl) ∧
  (∀ p q, best_buy b = some (p, q) →
    (∃ lvl o, mapGet b.buy_map p = some lvl ∧ o ∈ lvl) ∧
    ∀ p' lvl' o', mapGet b.buy_map p' = some lvl' → o' ∈ lvl' → p' ≤ p) ∧
  (best_sell b = none ↔ ¬∃ p lvl o, mapGet b.sell_map p = some lvl ∧ o ∈ lvl) ∧
  (∀ p q, best_sell b = some (p, q) →
    (∃ lvl o, mapGet b.sell_map p = some lvl ∧ o ∈ lvl) ∧
    ∀ p' lvl' o', mapGet b.sell_map p' = some lvl' → o' ∈ lvl' → p ≤ p')

/-- Structural health of price levels on one reachable state: stored levels
are non-empty with strictly positive orders, and a price with no stored
level is invisible to every query. -/
def levelIntegritySpec (b : OrderBook) : Prop :=
  (∀ p lvl, mapGet b.buy_map p = some lvl → lvl ≠ [] ∧ ∀ o ∈ lvl, 1 ≤ o.quantity) ∧
  (∀ p lvl, mapGet b.sell_map p = some lvl → lvl ≠ [] ∧ ∀ o ∈ lvl, 1 ≤ o.quantity) ∧
  (∀ p, mapGet b.buy_map p = none → buy_at b p = none) ∧
  (∀ p, mapGet b.sell_map p = none → sell_at b p = none) ∧
  (∀ p q, best_buy b = some (p, q) → ∃ lvl, mapGet b.buy_map p = some lvl ∧ lvl ≠ []) ∧
  (∀ p q, best_sell b = some (p, q) → ∃ lvl, mapGet b.sell_map p = some lvl ∧ lvl ≠ [])

/-- Aggregate correctness of the query surface on one reachable state: each
reported quantity is the exact sum of the remaining quantities of the orders
resting at that price on that side. -/
def aggregateSpec (b : OrderBook) : Prop :=
  (∀ p lvl, mapGet b.buy_map p = some lvl → buy_at b p = some (p, sideQtyAt b.buy_map p)) ∧
  (∀ p, mapGet b.buy_map p = none → buy_at b p = none) ∧
  (∀ p lvl, mapGet b.sell_map p = some lvl → sell_at b p = some (p, sideQtyAt b.sell_map p)) ∧
  (∀ p, mapGet b.sell_map p = none → sell_at b p = none) ∧
  (∀ p q, best_buy b = some (p, q) → q = sideQtyAt b.buy_map p) ∧
  (∀ p q, best_sell b = some (p, q) → q = sideQtyAt b.sell_map p)

/-- Heap/map synchrony on one reachable state: each best-price heap holds
exactly its map's keys with no duplicates, and consequently `place_order`
(whose `none` result models the `get_mut(..).unwrap()` panic) always
succeeds. -/
def heapSyncSpec (b : OrderBook) : Prop :=
  (∀ p, p ∈ b.buy_heap ↔ p ∈ mapKeys b.buy_map) ∧
  b.buy_heap.Nodup ∧
  (mapKeys b.buy_map).Nodup ∧
  (∀ p, p ∈ b.sell_heap ↔ p ∈ mapKeys b.sell_map) ∧
  b.sell_heap.Nodup ∧
  (mapKeys b.sell_map).Nodup ∧
  (∀ ts side price qty id, (place_order b ts side price qty id).isSome)

/-- C1: for every `place_order` call the returned trades' quantities plus the
quantity appended as a resting order (the growth of the incoming side's own
level at `price`, zero when nothing rests) equal the incoming quantity, and
each opposing maker level decreases by exactly the trades attributed to it:
`makerAttribution` says a front segment of the queue is consumed, one trade
per maker carrying that maker's full quantity, with at most the next maker
reduced by exactly its (single) trade's quantity. -/
theorem spec_C1 (b : OrderBook) (ts : Nat) (side : Side) (price qty id : Nat)
    (b' : OrderBook) (ts' : Nat) (hb : Reachable b)
    (h : place_order b ts side price qty id = some (b', ts')) :
    tradesSum b'.trade_buffer + levelSum (levelD (ownMap b' side) price)
      = qty + levelSum (levelD (ownMap b side) price) ∧
    ∀ p, makerAttribution (levelD (oppMap b side) p) (levelD (oppMap b' side) p)
      (b'.trade_buffer.filter (fun t => t.price == p)) p id := by
  obtain ⟨b2, ts2, heq, _, hcons, _, _, hattr⟩ :=
    place_order_main b ts side price qty id (Reachable_inv b hb)
  rw [heq] at h
  simp only [Option.some.injEq, Prod.mk.injEq] at h
  obtain ⟨rfl, rfl⟩ := h
  exact ⟨hcons, hattr⟩

/-- C2: the trade list of any `place_order` call respects price-time
priority: trades are sorted best-price-first (ascending maker prices for an
incoming buy, descending for an incoming sell), and within each price the
trades consume the level's queue strictly from the front
(`makerAttribution`), so no maker is matched while an earlier maker at the
same price still has quantity. -/
theorem spec_C2 (b : OrderBook) (ts : Nat) (side : Side) (price qty id : Nat)
    (b' : OrderBook) (ts' : Nat) (hb : Reachable b)
    (h : place_order b ts side price qty id = some (b', ts')) :
    (side = Side.Buy → List.Pairwise (fun u v => u.price ≤ v.price) b'.trade_buffer) ∧
    (side = Side.Sell → List.Pairwise (fun u v => v.price ≤ u.price) b'.trade_buffer) ∧
    ∀ p, makerAttribution (levelD (oppMap b side) p) (levelD (oppMap b' side) p)
      (b'.trade_buffer.filter (fun t => t.price == p)) p id := by
  obtain ⟨b2, ts2, heq, _, _, _, hpw, hattr⟩ :=
    place_order_main b ts side price qty id (Reachable_inv b hb)
  rw [heq] at h
  simp only [Option.some.injEq, Prod.mk.injEq] at h
  obtain ⟨rfl, rfl⟩ := h
  refine ⟨?_, ?_, hattr⟩
  · intro hside
    subst hside
    simpa [relOf] using hpw
  · intro hside
    subst hside
    simpa [relOf] using hpw

/-- C3: every emitted trade's price is the price of the resting maker level
it came from (the maker order rests there and carries that price), and it
satisfies the crossing test against the incoming order: at most the incoming
price for a buy, at least it for a sell. -/
theorem spec_C3 (b : OrderBook) (ts : Nat) (side : Side) (price qty id : Nat)
    (b' : OrderBook) (ts' : Nat) (hb : Reachable b)
    (h : place_order b ts side price qty id = some (b', ts')) :
    ∀ t ∈ b'.trade_buffer,
      (∃ lvl, mapGet (oppMap b side) t.price = some lvl ∧
        ∃ o, o ∈ lvl ∧ o.id = t.maker_id ∧ o.price = t.price) ∧
      (side = Side.Buy → t.price ≤ price) ∧
      (side = Side.Sell → price ≤ t.price) := by
  obtain ⟨b2, ts2, heq, _, _, htr, _, _⟩ :=
    place_order_main b ts side price qty id (Reachable_inv b hb)
  rw [heq] at h
  simp only [Option.some.injEq, Prod.mk.injEq] at h
  obtain ⟨rfl, rfl⟩ := h
  intro t ht
  obtain ⟨_, hbcq, _, lvl, hgl, o, ho, hoid, hopr⟩ := htr t ht
  refine ⟨⟨lvl, hgl, o, ho, hoid, hopr⟩, ?_, ?_⟩
  · intro hside
    subst hside
    simp only [bcOf, decide_eq_false_iff_not] at hbcq
    omega
  · intro hside
    subst hside
    simp only [bcOf, decide_eq_false_iff_not] at hbcq
    omega

/-- C4: on every reachable book state, `best_buy` returns `none` exactly when
no buy order rests, and otherwise the highest price carrying resting buy
orders; symmetrically `best_sell` returns the lowest resting sell price. -/
theorem spec_C4 (b : OrderBook) (hb : Reachable b) : bestPriceSpec b := by
  have hi := Reachable_inv b hb
  refine ⟨⟨?_, ?_⟩, ?_, ⟨?_, ?_⟩, ?_⟩
  · intro hnone
    rintro ⟨p, lvl, o, hg, ho⟩
    have hp : p ∈ b.buy_heap := (hi.buy.mem_iff p).mpr (by simp [hg])
    cases hh : b.buy_heap with
    | nil =>
      rw [hh] at hp
      simp at hp
    | cons a l =>
      have ha : (mapGet b.buy_map a).isSome :=
        (hi.buy.mem_iff a).mp (by rw [hh]; exact List.mem_cons_self _ _)
      obtain ⟨lvla, hga⟩ := Option.isSome_iff_exists.mp ha
      simp [best_buy, hh, hga] at hnone
  · intro hno
    cases hh : b.buy_heap with
    | nil => simp [best_buy, hh]
    | cons a l =>
      exfalso
      have ha : (mapGet b.buy_map a).isSome :=
        (hi.buy.mem_iff a).mp (by rw [hh]; exact List.mem_cons_self _ _)
      obtain ⟨lvla, hga⟩ := Option.isSome_iff_exists.mp ha
      obtain ⟨o, ho⟩ := List.exists_mem_of_ne_nil _ (hi.buy.lvl_ne a lvla hga)
      exact hno ⟨a, lvla, o, hga, ho⟩
  · intro p q hsome
    obtain ⟨hhead, lvl, hg, hq⟩ := best_buy_some b p q hsome
    obtain ⟨o, ho⟩ := List.exists_mem_of_ne_nil _ (hi.buy.lvl_ne p lvl hg)
    refine ⟨⟨lvl, o, hg, ho⟩, ?_⟩
    intro p' lvl' o' hg' ho'
    have hp' : p' ∈ b.buy_heap := (hi.buy.mem_iff p').mpr (by simp [hg'])
    have hs := hi.buy.sorted
    cases hh : b.buy_heap with
    | nil =>
      rw [hh] at hp'
      simp at hp'
    | cons a l =>
      rw [hh] at hhead hp' hs
      simp only [List.head?_cons, Option.some.injEq] at hhead
      subst hhead
      rcases List.mem_cons.mp hp' with h | h
      · exact le_of_eq h
      · exact (List.sorted_cons.mp hs).1 p' h
  · intro hnone
    rintro ⟨p, lvl, o, hg, ho⟩
    have hp : p ∈ b.sell_heap := (hi.sell.mem_iff p).mpr (by simp [hg])
    cases hh : b.sell_heap with
    | nil =>
      rw [hh] at hp
      simp at hp
    | cons a l =>
      have ha : (mapGet b.sell_map a).isSome :=
        (hi.sell.mem_iff a).mp (by rw [hh]; exact List.mem_cons_self _ _)
      obtain ⟨lvla, hga⟩ := Option.isSome_iff_exists.mp ha
      simp [best_sell, hh, hga] at hnone
  · intro hno
    cases hh : b.sell_heap with
    | nil => simp [best_sell, hh]
    | cons a l =>
      exfalso
      have ha : (mapGet b.sell_map a).isSome :=
        (hi.sell.mem_iff a).mp (by rw [hh]; exact List.mem_cons_self _ _)
      obtain ⟨lvla, hga⟩ := Option.isSome_iff_exists.mp ha
      obtain ⟨o, ho⟩ := List.exists_mem_of_ne_nil _ (hi.sell.lvl_ne a lvla hga)
      exact hno ⟨a, lvla, o, hga, ho⟩
  · intro p q hsome
    obtain ⟨hhead, lvl, hg, hq⟩ := best_sell_some b p q hsome
    obtain ⟨o, ho⟩ := List.exists_mem_of_ne_nil _ (hi.sell.lvl_ne p lvl hg)
    refine ⟨⟨lvl, o, hg, ho⟩, ?_⟩
    intro p' lvl' o' hg' ho'
    have hp' : p' ∈ b.sell_heap := (hi.sell.mem_iff p').mpr (by simp [hg'])
    have hs := hi.sell.sorted
    cases hh : b.sell_heap with
    | nil =>
      rw [hh] at hp'
      simp at hp'
    | cons a l =>
      rw [hh] at hhead hp' hs
      simp only [List.head?_cons, Option.some.injEq] at hhead
      subst hhead
      rcases List.mem_cons.mp hp' with h | h
      · exact le_of_eq h.symm
      · exact (List.sorted_cons.mp hs).1 p' h

/-- C5: on every reachable book state, every stored price level is non-empty,
every resting order has quantity at least 1, and a price without a stored
level (drained or never populated) is unobservable through `best_buy`,
`best_sell`, `buy_at` or `sell_at`. -/
theorem spec_C5 (b : OrderBook) (hb : Reachable b) : levelIntegritySpec b := by
  have hi := Reachable_inv b hb
  refine ⟨?_, ?_, ?_, ?_, ?_, ?_⟩
  · intro p lvl hg
    exact ⟨hi.buy.lvl_ne p lvl hg, hi.buy.lvl_pos p lvl hg⟩
  · intro p lvl hg
    exact ⟨hi.sell.lvl_ne p lvl hg, hi.sell.lvl_pos p lvl hg⟩
  · intro p hg
    simp [buy_at, get_quantity_at_price, hg]
  · intro p hg
    simp [sell_at, get_quantity_at_price, hg]
  · intro p q hsome
    obtain ⟨_, lvl, hg, _⟩ := best_buy_some b p q hsome
    exact ⟨lvl, hg, hi.buy.lvl_ne p lvl hg⟩
  · intro p q hsome
    obtain ⟨_, lvl, hg, _⟩ := best_sell_some b p q hsome
    exact ⟨lvl, hg, hi.sell.lvl_ne p lvl hg⟩

/-- C6: a `place_order` call with quantity 0 returns an empty trade list,
leaves both maps and both heaps unchanged, and consumes no sequence number
(the timestamp counter is returned untouched), for any side, price, id and
any starting book state. -/
theorem spec_C6 (b : OrderBook) (ts : Nat) (side : Side) (price id : Nat) :
    place_order b ts side price 0 id = some ({ b with trade_buffer := [] }, ts) ∧
    ({ b with trade_buffer := [] } : OrderBook).buy_heap = b.buy_heap ∧
    ({ b with trade_buffer := [] } : OrderBook).sell_heap = b.sell_heap ∧
    ({ b with trade_buffer := [] } : OrderBook).buy_map = b.buy_map ∧
    ({ b with trade_buffer := [] } : OrderBook).sell_map = b.sell_map :=
  ⟨by simp [place_order], rfl, rfl, rfl, rfl⟩

/-- C7: on every reachable book state, `buy_at`/`sell_at` report exactly the
sum of the remaining quantities of the orders resting at that price on that
side (`none` when no level exists there), and `best_buy`/`best_sell` report
the same exact sum for their price. -/
theorem spec_C7 (b : OrderBook) (hb : Reachable b) : aggregateSpec b := by
  have hi := Reachable_inv b hb
  have hkvb := BookInv_kv_price b.buy_map hi.buy.keys_nodup hi.buy.lvl_price
  have hkvs := BookInv_kv_price b.sell_map hi.sell.keys_nodup hi.sell.lvl_price
  refine ⟨?_, ?_, ?_, ?_, ?_, ?_⟩
  · intro p lvl hg
    have hs := sideQtyAt_eq_levelSum b.buy_map p hkvb hi.buy.keys_nodup
    rw [hs]
    simp [buy_at, get_quantity_at_price, hg, levelD]
  · intro p hg
    simp [buy_at, get_quantity_at_price, hg]
  · intro p lvl hg
    have hs := sideQtyAt_eq_levelSum b.sell_map p hkvs hi.sell.keys_nodup
    rw [hs]
    simp [sell_at, get_quantity_at_price, hg, levelD]
  · intro p hg
    simp [sell_at, get_quantity_at_price, hg]
  · intro p q hsome
    obtain ⟨_, lvl, hg, hq⟩ := best_buy_some b p q hsome
    rw [sideQtyAt_eq_levelSum b.buy_map p hkvb hi.buy.keys_nodup]
    rw [hq]
    simp [levelD, hg]
  · intro p q hsome
    obtain ⟨_, lvl, hg, hq⟩ := best_sell_some b p q hsome
    rw [sideQtyAt_eq_levelSum b.sell_map p hkvs hi.sell.keys_nodup]
    rw [hq]
    simp [levelD, hg]

/-- C8: every trade returned by a `place_order` call on a reachable book
state has quantity at least 1; a zero-quantity trade is never emitted. -/
theorem spec_C8 (b : OrderBook) (ts : Nat) (side : Side) (price qty id : Nat)
    (b' : OrderBook) (ts' : Nat) (hb : Reachable b)
    (h : place_order b ts side price qty id = some (b', ts')) :
    ∀ t ∈ b'.trade_buffer, 1 ≤ t.quantity := by
  obtain ⟨b2, ts2, heq, _, _, htr, _, _⟩ :=
    place_order_main b ts side price qty id (Reachable_inv b hb)
  rw [heq] at h
  simp only [Option.some.injEq, Prod.mk.injEq] at h
  obtain ⟨rfl, rfl⟩ := h
  intro t ht
  exact (htr t ht).2.2.1

/-- C9: the book is never crossed between calls: on every reachable state, if
both sides are non-empty then the best buy price is strictly below the best
sell price. -/
theorem spec_C9 (b : OrderBook) (pb qb ps qs : Nat) (hb : Reachable b)
    (h1 : best_buy b = some (pb, qb)) (h2 : best_sell b = some (ps, qs)) :
    pb < ps := by
  have hi := Reachable_inv b hb
  obtain ⟨hh1, _⟩ := best_buy_some b pb qb h1
  obtain ⟨hh2, _⟩ := best_sell_some b ps qs h2
  exact hi.cross pb (mem_of_head_eq _ _ hh1) ps (mem_of_head_eq _ _ hh2)

/-- C10: on every reachable state the heaps mirror their maps' key sets
exactly, without duplicates or stale entries, and `place_order` never hits
the `unwrap` panic (modelled as `none`). -/
theorem spec_C10 (b : OrderBook) (hb : Reachable b) : heapSyncSpec b := by
  have hi := Reachable_inv b hb
  refine ⟨?_, hi.buy.nodup, hi.buy.keys_nodup, ?_, hi.sell.nodup, hi.sell.keys_nodup, ?_⟩
  · intro p
    rw [hi.buy.mem_iff p]
    exact mapGet_isSome_iff_mem_keys _ _
  · intro p
    rw [hi.sell.mem_iff p]
    exact mapGet_isSome_iff_mem_keys _ _
  · intro ts side price qty id
    exact place_order_isSome b ts side price qty id hi

/-- Book after one resting buy order (price 10, quantity 100, id 1). -/
def bk1 : OrderBook := ⟨[10], [], [(10, [⟨1, 10, 100, 1⟩])], [], []⟩

/-- Book after a further resting sell order (price 12, quantity 50, id 2). -/
def bk2 : OrderBook := ⟨[10], [12], [(10, [⟨1, 10, 100, 1⟩])], [(12, [⟨2, 12, 50, 2⟩])], []⟩

/-- Book after a crossing sell (price 10, quantity 30, id 3) partially fills
the resting buy, emitting one trade. -/
def bk3 : OrderBook :=
  ⟨[10], [12], [(10, [⟨1, 10, 70, 1⟩])], [(12, [⟨2, 12, 50, 2⟩])], [⟨10, 30, 1, 3⟩]⟩

theorem reach_bk1 : Reachable bk1 :=
  Reachable.step Reachable.init
    (show place_order OrderBook.new 1 Side.Buy 10 100 1 = some (bk1, 2) from rfl)

theorem reach_bk2 : Reachable bk2 :=
  Reachable.step reach_bk1
    (show place_order bk1 2 Side.Sell 12 50 2 = some (bk2, 3) from rfl)

theorem reach_bk3 : Reachable bk3 :=
  Reachable.step reach_bk2
    (show place_order bk2 3 Side.Sell 10 30 3 = some (bk3, 4) from rfl)

theorem spec_C1_witness :
    Reachable bk2 ∧
    (tradesSum bk3.trade_buffer + levelSum (levelD (ownMap bk3 Side.Sell) 10)
        = 30 + levelSum (levelD (ownMap bk2 Side.Sell) 10) ∧
      ∀ p, makerAttribution (levelD (oppMap bk2 Side.Sell) p) (levelD (oppMap bk3 Side.Sell) p)
        (bk3.trade_buffer.filter (fun t => t.price == p)) p 3) :=
  ⟨reach_bk2, spec_C1 bk2 3 Side.Sell 10 30 3 bk3 4 reach_bk2 rfl⟩

theorem spec_C2_witness :
    Reachable bk2 ∧
    ((Side.Sell = Side.Buy → List.Pairwise (fun u v => u.price ≤ v.price) bk3.trade_buffer) ∧
      (Side.Sell = Side.Sell → List.Pairwise (fun u v => v.price ≤ u.price) bk3.trade_buffer) ∧
      ∀ p, makerAttribution (levelD (oppMap bk2 Side.Sell) p) (levelD (oppMap bk3 Side.Sell) p)
        (bk3.trade_buffer.filter (fun t => t.price == p)) p 3) :=
  ⟨reach_bk2, spec_C2 bk2 3 Side.Sell 10 30 3 bk3 4 reach_bk2 rfl⟩

theorem spec_C3_witness :
    Reachable bk2 ∧
    (∀ t ∈ bk3.trade_buffer,
      (∃ lvl, mapGet (oppMap bk2 Side.Sell) t.price = some lvl ∧
        ∃ o, o ∈ lvl ∧ o.id = t.maker_id ∧ o.price = t.price) ∧
      (Side.Sell = Side.Buy → t.price ≤ 10) ∧
      (Side.Sell = Side.Sell → 10 ≤ t.price)) :=
  ⟨reach_bk2, spec_C3 bk2 3 Side.Sell 10 30 3 bk3 4 reach_bk2 rfl⟩

theorem spec_C4_witness : Reachable bk2 ∧ bestPriceSpec bk2 :=
  ⟨reach_bk2, spec_C4 bk2 reach_bk2⟩

theorem spec_C5_witness : Reachable bk2 ∧ levelIntegritySpec bk2 :=
  ⟨reach_bk2, spec_C5 bk2 reach_bk2⟩

theorem spec_C7_witness : Reachable bk2 ∧ aggregateSpec bk2 :=
  ⟨reach_bk2, spec_C7 bk2 reach_bk2⟩

theorem spec_C8_witness :
    Reachable bk2 ∧ ∀ t ∈ bk3.trade_buffer, 1 ≤ t.quantity :=
  ⟨reach_bk2, spec_C8 bk2 3 Side.Sell 10 30 3 bk3 4 reach_bk2 rfl⟩

theorem spec_C9_witness : Reachable bk2 ∧ (10 : Nat) < 12 :=
  ⟨reach_bk2, spec_C9 bk2 10 100 12 50 reach_bk2 rfl rfl⟩

theorem spec_C10_witness : Reachable bk2 ∧ heapSyncSpec bk2 :=
  ⟨reach_bk2, spec_C10 bk2 reach_bk2⟩
